import Mathlib

/-!
# Verification of the SFA container format (xcodz-dot/sfa)

Shallow embedding of `src/lib.rs`: the `encode` writer and the
`decode_from_reader` streaming parser for the "SFA" single-file-asset
container, together with proofs of the specification's claims.

Bytes are modelled as `Nat` values (with `< 256` hypotheses where byte-ness
matters).  The external image codec (`image::open`, `DynamicImage::write_to`
with PNG, `image::load_from_memory_with_format` with PNG) is an abstract
collaborator, modelled as a structure of functions over an opaque image type.
The reader's `HashMap<String, DynamicImage>` is modelled as an association
list with an overwrite-on-insert operation; only `insert` and key lookup are
ever used by the code.
-/

namespace SFA

/-- The distinct failure cases of `decode_from_reader` (the Rust code returns
boxed dynamic errors; these constructors correspond one-to-one to its five
`return Err(...)` / `?` sites inside the parser). -/
inductive SfaError where
  /-- "Reached EOF before the magic string was seen." -/
  | truncatedMagic
  /-- "Magic Text Identifier not found after parsing 4 letters of the file" -/
  | invalidMagic
  /-- the `?` on `String::parse::<usize>` in the size field -/
  | invalidLength
  /-- "Reached EOF before all file content was retrieved" -/
  | truncatedPayload
  /-- the `?` on `image::load_from_memory_with_format` -/
  | invalidPayload
deriving DecidableEq

/-- The single failure case of `encode` that the format logic can produce:
`image::open` failing on an input file.  (Sink I/O failures are outside the
in-memory model.) -/
inductive EncodeError where
  | sourceUnreadable
deriving DecidableEq

/-- The external image-codec collaborator, over an opaque image type `Img`:
`openImage` is `image::open` (read a file and decode any supported format),
`encodePng` is `DynamicImage::write_to(..., Png)` into an in-memory buffer,
`decodePng` is `image::load_from_memory_with_format(..., Png)`. -/
structure Codec (Img : Type) where
  openImage : String → Option Img
  encodePng : Img → List Nat
  decodePng : List Nat → Option Img

/-- The 4 magic bytes `b"SFA;"`. -/
def magicBytes : List Nat := [83, 70, 65, 59]

/-- The UTF-8 byte length that pushing the byte `b` as a `char` adds to a
Rust `String` (`contents.push(b as char)`): code points below `0x80` occupy
one byte, code points in `0x80..=0xFF` occupy two. -/
def byteCharLen (b : Nat) : Nat := if b < 128 then 1 else 2

/-- Phase 1 of `decode_from_reader` (`'parseloop_magic`): pull bytes one at a
time, pushing each as a `char` onto `contents`; stop successfully as soon as
`contents == "SFA;"`, fail with `invalidMagic` once `contents.len()` (its
UTF-8 byte length, here computed from the pushed byte values) reaches 4, and
fail with `truncatedMagic` on end of input.  `acc` holds the byte values
pushed so far; comparing it with `[83,70,65,59]` is the same as comparing the
accumulated string with `"SFA;"` because `(b as char)` is injective on bytes.
Returns the unconsumed remainder of the input on success. -/
def parseMagic : List Nat → List Nat → Except SfaError (List Nat)
  | [], _ => .error .truncatedMagic
  | b :: rest, acc =>
    let acc' := acc ++ [b]
    if acc' = magicBytes then .ok rest
    else if 4 ≤ (acc'.map byteCharLen).sum then .error .invalidMagic
    else parseMagic rest acc'

/-- Whether the byte `b`, read as a `char`, is an ASCII decimal digit (the
only characters `usize::from_str` accepts as digits). -/
def isDigitByte (b : Nat) : Bool := 48 ≤ b && b ≤ 57

/-- The numeric value of a string of ASCII digit bytes, most significant
first (accumulation exactly as Rust's integer `from_str` does it). -/
def digitsVal (ds : List Nat) : Nat := ds.foldl (fun a b => 10 * a + (b - 48)) 0

/-- `usize::MAX` on the 64-bit targets the crate builds for. -/
def USIZE_MAX : Nat := 2 ^ 64 - 1

/-- Rust's `str::parse::<usize>()` on the accumulated size field, over the
byte values of its characters: an optional single leading `+`, then one or
more ASCII decimal digits, value at most `usize::MAX`; anything else is a
parse error (`None`). -/
def parseUsize (cs : List Nat) : Option Nat :=
  let ds := if cs.head? = some 43 then cs.tail else cs
  if ds.isEmpty then none
  else if ds.all isDigitByte then
    if digitsVal ds ≤ USIZE_MAX then some (digitsVal ds) else none
  else none

/-- The two explicit parser modes of the Rust entry loop (`cmode = "n"` /
`cmode = "s"`), plus the payload-consuming `for` loop nested inside the
size-mode branch, made an explicit third mode so that the whole machine is
one byte-at-a-time step function: `readingPayload size acc` is the state of
that `for` loop with `size` total bytes wanted and `acc` the bytes collected
so far (entered only with `acc.length < size`). -/
inductive Mode where
  | readingName
  | readingSize
  | readingPayload (size : Nat) (acc : List Nat)
deriving DecidableEq

/-- `HashMap::insert` on an association-list model: overwrite the binding if
the key is present, otherwise add it. -/
def mapInsert {α : Type} : List (String × α) → String → α → List (String × α)
  | [], k, v => [(k, v)]
  | (k', v') :: rest, k, v =>
    if k' = k then (k, v) :: rest else (k', v') :: mapInsert rest k v

/-- `HashMap` key lookup on the association-list model. -/
def mapLookup {α : Type} : List (String × α) → String → Option α
  | [], _ => none
  | (k', v) :: rest, k => if k' = k then some v else mapLookup rest k

/-- The `String` the parser has built from the raw name bytes `nb`: each byte
was pushed individually with `contents.push(b as char)`, i.e. converted to
the code point of the same value (a Latin-1 reading, not UTF-8 decoding). -/
def decodedName (nb : List Nat) : String := String.mk (nb.map Char.ofNat)

/-- Phase 2 of `decode_from_reader`: the `while let Some(b)` entry loop.
`contents` and `name` are the byte values of the two accumulator strings of
the Rust code (`contents`, `name`), `results` the map built so far.

* In `readingName` and `readingSize`, a non-`:` byte is pushed onto
  `contents` (`b as char == ':'` is exactly `b = 58` for a byte).
* The `:` ending the name moves `contents` into `name` and switches mode.
* The `:` ending the size parses `contents` as a `usize`; failure is the
  `?`-propagated `invalidLength`.  A zero size runs the payload `for` loop
  zero times and immediately decodes the empty buffer; otherwise the machine
  enters `readingPayload`.
* In `readingPayload`, every byte (including `:` and arbitrary values) goes
  into the payload buffer; when it is full the buffer is PNG-decoded
  (failure is `invalidPayload`) and inserted under the accumulated name.
* End of input returns `.ok results` in the two text modes — the `while let`
  simply ends, whatever `contents` holds — and is the
  "Reached EOF before all file content was retrieved" error mid-payload. -/
def parseEntries {Img : Type} (codec : Codec Img) :
    List Nat → List Nat → List Nat → Mode → List (String × Img) →
    Except SfaError (List (String × Img))
  | [], _, _, .readingName, results => .ok results
  | [], _, _, .readingSize, results => .ok results
  | [], _, _, .readingPayload _ _, _ => .error .truncatedPayload
  | b :: rest, contents, name, .readingName, results =>
    if b = 58 then
      parseEntries codec rest [] contents .readingSize results
    else
      parseEntries codec rest (contents ++ [b]) name .readingName results
  | b :: rest, contents, name, .readingSize, results =>
    if b = 58 then
      match parseUsize contents with
      | none => .error .invalidLength
      | some size =>
        if size = 0 then
          match codec.decodePng [] with
          | none => .error .invalidPayload
          | some im =>
            parseEntries codec rest [] name .readingName
              (mapInsert results (decodedName name) im)
        else
          parseEntries codec rest [] name (.readingPayload size []) results
    else
      parseEntries codec rest (contents ++ [b]) name .readingSize results
  | b :: rest, contents, name, .readingPayload size acc, results =>
    let acc' := acc ++ [b]
    if acc'.length = size then
      match codec.decodePng acc' with
      | none => .error .invalidPayload
      | some im =>
        parseEntries codec rest contents name .readingName
          (mapInsert results (decodedName name) im)
    else
      parseEntries codec rest contents name (.readingPayload size acc') results

/-- `decode_from_reader`, on the fully-read input byte list (the Rust code
first does `read_to_end`): validate the magic, then run the entry loop with
empty accumulators in name mode over the remainder. -/
def decodeFromReader {Img : Type} (codec : Codec Img) (input : List Nat) :
    Except SfaError (List (String × Img)) :=
  match parseMagic input [] with
  | .error e => .error e
  | .ok rest => parseEntries codec rest [] [] .readingName []

/-- The UTF-8 encoding of one character, by code-point range (what Rust's
`str::as_bytes` exposes for each `char` of the string). -/
def charUtf8 (c : Char) : List Nat :=
  let n := c.toNat
  if n < 128 then [n]
  else if n < 2048 then [192 + n / 64, 128 + n % 64]
  else if n < 65536 then [224 + n / 4096, 128 + n / 64 % 64, 128 + n % 64]
  else [240 + n / 262144, 128 + n / 4096 % 64, 128 + n / 64 % 64, 128 + n % 64]

/-- The UTF-8 bytes of a string (`str::as_bytes`). -/
def strBytes (s : String) : List Nat := s.data.flatMap charUtf8

/-- ASCII decimal digits of `n`, most significant first, via repeated
division; the first argument is fuel (any amount above `n` gives the true
digits).  This is the byte sequence `format!("{}", n)` produces. -/
def natDecAux : Nat → Nat → List Nat
  | 0, _ => []
  | f + 1, n => if n < 10 then [48 + n] else natDecAux f (n / 10) ++ [48 + n % 10]

/-- The ASCII decimal representation of `n` (bytes of `format!("{}", n)`). -/
def natDecimal (n : Nat) : List Nat := natDecAux (n + 1) n

/-- The body of `encode`'s `for` loop, as the byte list it appends to the
sink: for each input file in order, open and decode it (`image::open`,
failing with `sourceUnreadable`), re-encode it to PNG in memory, then emit
`format!("{}:{}:", x, buf.len())` as UTF-8 followed by the buffer itself. -/
def encodeEntries {Img : Type} (codec : Codec Img) :
    List String → Except EncodeError (List Nat)
  | [] => .ok []
  | x :: xs =>
    match codec.openImage x with
    | none => .error .sourceUnreadable
    | some im =>
      let buf := codec.encodePng im
      match encodeEntries codec xs with
      | .error e => .error e
      | .ok rest =>
        .ok (strBytes x ++ [58] ++ natDecimal buf.length ++ [58] ++ buf ++ rest)

/-- `encode`: the bytes written to the (created/truncated) output sink —
the magic marker `b"SFA;"` first, unconditionally, then the entries. -/
def encode {Img : Type} (codec : Codec Img) (inputFiles : List String) :
    Except EncodeError (List Nat) :=
  match encodeEntries codec inputFiles with
  | .error e => .error e
  | .ok body => .ok (magicBytes ++ body)

/-- A concrete codec instance used to evaluate the model on closed inputs:
images are their own byte lists, PNG encoding is the identity and PNG
decoding always succeeds. -/
def bytesCodec : Codec (List Nat) :=
  { openImage := fun _ => some []
    encodePng := id
    decodePng := fun p => some p }

/-- A second concrete codec over the unit image type: every source opens,
PNG bytes are empty, and empty bytes decode.  Used to instantiate theorems
whose hypotheses constrain every image's encoding. -/
def unitCodec : Codec Unit :=
  { openImage := fun _ => some ()
    encodePng := fun _ => []
    decodePng := fun _ => some () }

/-- The wire bytes of one entry `(name bytes, payload bytes, image)`:
`<name> ":" <decimal length> ":" <payload>`.  The third component is carried
along only to say what the payload PNG-decodes to. -/
def entryBytes {Img : Type} (e : List Nat × List Nat × Img) : List Nat :=
  e.1 ++ [58] ++ natDecimal e.2.1.length ++ [58] ++ e.2.1

/-- The byte stream of a sequence of entries (what follows the magic). -/
def sfaBody {Img : Type} (entries : List (List Nat × List Nat × Img)) : List Nat :=
  entries.flatMap entryBytes


deriving instance DecidableEq for Except

example : decodeFromReader bytesCodec [83, 70, 65, 59] = .ok [] := by decide

example :
    decodeFromReader bytesCodec
      (magicBytes ++ [97, 58, 50, 58, 7, 8]) =
      .ok [("a", [7, 8])] := by decide

/-! ## Basic facts about the magic phase and the decimal size field -/

/-- A stream that starts with the magic marker passes phase 1, which consumes
exactly those 4 bytes. -/
theorem parseMagic_magic (rest : List Nat) :
    parseMagic (magicBytes ++ rest) [] = .ok rest := rfl

/-- Every byte `natDecAux` emits is an ASCII digit. -/
theorem natDecAux_digit :
    ∀ {fuel n : Nat}, n < fuel → ∀ d ∈ natDecAux fuel n, 48 ≤ d ∧ d ≤ 57 := by
  intro fuel
  induction fuel with
  | zero => intro n h; omega
  | succ f ih =>
    intro n _ d hd
    by_cases h10 : n < 10
    · simp [natDecAux, h10] at hd
      omega
    · simp [natDecAux, h10] at hd
      rcases hd with hd | hd
      · have hdiv : n / 10 < f := by
          have := Nat.div_lt_self (show 0 < n by omega) (show 1 < 10 by omega)
          omega
        exact ih hdiv d hd
      · have := Nat.mod_lt n (show 0 < 10 by omega)
        omega

/-- Every byte of the decimal rendering of `n` is an ASCII digit. -/
theorem natDecimal_digit {n : Nat} : ∀ d ∈ natDecimal n, 48 ≤ d ∧ d ≤ 57 :=
  natDecAux_digit (Nat.lt_succ_self n)

/-- In particular the decimal size field never contains the `:` delimiter. -/
theorem natDecimal_ne_colon {n : Nat} : ∀ d ∈ natDecimal n, d ≠ 58 := by
  intro d hd
  have := natDecimal_digit d hd
  omega

/-- The decimal rendering of `n` is never empty. -/
theorem natDecimal_ne_nil (n : Nat) : natDecimal n ≠ [] := by
  by_cases h10 : n < 10 <;> simp [natDecimal, natDecAux, h10]

/-- Appending one digit multiplies the accumulated value by ten. -/
theorem digitsVal_append_digit (ds : List Nat) (d : Nat) :
    digitsVal (ds ++ [d]) = 10 * digitsVal ds + (d - 48) := by
  simp [digitsVal, List.foldl_append]

/-- Reading the emitted digits back gives the original number. -/
theorem digitsVal_natDecAux :
    ∀ {fuel n : Nat}, n < fuel → digitsVal (natDecAux fuel n) = n := by
  intro fuel
  induction fuel with
  | zero => intro n h; omega
  | succ f ih =>
    intro n _
    by_cases h10 : n < 10
    · simp [natDecAux, h10, digitsVal]
    · have hdiv : n / 10 < f := by
        have := Nat.div_lt_self (show 0 < n by omega) (show 1 < 10 by omega)
        omega
      have hmod := Nat.mod_lt n (show 0 < 10 by omega)
      have hdm := Nat.div_add_mod n 10
      simp [natDecAux, h10, digitsVal_append_digit, ih hdiv]
      omega

theorem digitsVal_natDecimal (n : Nat) : digitsVal (natDecimal n) = n :=
  digitsVal_natDecAux (Nat.lt_succ_self n)

/-- The size parser accepts the writer's decimal rendering of any length
that fits in `usize` and recovers the value. -/
theorem parseUsize_natDecimal {n : Nat} (h : n ≤ USIZE_MAX) :
    parseUsize (natDecimal n) = some n := by
  have hdig := @natDecimal_digit n
  have hnil := natDecimal_ne_nil n
  unfold parseUsize
  have hhead : (natDecimal n).head? ≠ some 43 := by
    cases hds : natDecimal n with
    | nil => exact absurd hds hnil
    | cons d tl =>
      have h48 : 48 ≤ d ∧ d ≤ 57 := hdig d (by rw [hds]; exact List.mem_cons_self d tl)
      intro hc
      rw [List.head?_cons] at hc
      injection hc with hc
      omega
  rw [if_neg hhead]
  rw [if_neg (by simpa [List.isEmpty_iff] using hnil)]
  rw [if_pos (by
    rw [List.all_eq_true]
    intro d hd
    have := hdig d hd
    simp [isDigitByte]
    omega)]
  rw [digitsVal_natDecimal]
  rw [if_pos h]

/-! ## Traversal lemmas for the entry-loop state machine -/

/-- In name mode, a run of non-delimiter bytes is accumulated verbatim. -/
theorem parseEntries_name_run {Img : Type} (codec : Codec Img) :
    ∀ (nb : List Nat), (∀ b ∈ nb, b ≠ 58) →
    ∀ (rest contents name : List Nat) (results : List (String × Img)),
    parseEntries codec (nb ++ rest) contents name .readingName results =
      parseEntries codec rest (contents ++ nb) name .readingName results := by
  intro nb
  induction nb with
  | nil => intro _ rest contents name results; simp
  | cons b tl ih =>
    intro h rest contents name results
    have hb : b ≠ 58 := h b (List.mem_cons_self b tl)
    rw [List.cons_append, parseEntries, if_neg hb,
      ih (fun x hx => h x (List.mem_cons_of_mem b hx)) rest (contents ++ [b]) name results]
    simp [List.append_assoc]

/-- In size mode, a run of non-delimiter bytes is accumulated verbatim. -/
theorem parseEntries_size_run {Img : Type} (codec : Codec Img) :
    ∀ (sb : List Nat), (∀ b ∈ sb, b ≠ 58) →
    ∀ (rest contents name : List Nat) (results : List (String × Img)),
    parseEntries codec (sb ++ rest) contents name .readingSize results =
      parseEntries codec rest (contents ++ sb) name .readingSize results := by
  intro sb
  induction sb with
  | nil => intro _ rest contents name results; simp
  | cons b tl ih =>
    intro h rest contents name results
    have hb : b ≠ 58 := h b (List.mem_cons_self b tl)
    rw [List.cons_append, parseEntries, if_neg hb,
      ih (fun x hx => h x (List.mem_cons_of_mem b hx)) rest (contents ++ [b]) name results]
    simp [List.append_assoc]

/-- The payload `for` loop consumes exactly the declared number of raw bytes
— whatever their values, `:` included — then PNG-decodes them and returns to
name mode with the result inserted under the pending name. -/
theorem parseEntries_payload_run {Img : Type} (codec : Codec Img) :
    ∀ (p : List Nat), p ≠ [] →
    ∀ (size : Nat) (acc : List Nat), acc.length + p.length = size →
    ∀ (rest contents name : List Nat) (results : List (String × Img)),
    parseEntries codec (p ++ rest) contents name (.readingPayload size acc) results =
      match codec.decodePng (acc ++ p) with
      | none => .error .invalidPayload
      | some im =>
        parseEntries codec rest contents name .readingName
          (mapInsert results (decodedName name) im) := by
  intro p
  induction p with
  | nil => intro h; exact absurd rfl h
  | cons b tl ih =>
    intro _ size acc hsz rest contents name results
    rw [List.cons_append, parseEntries]
    cases tl with
    | nil =>
      have hlen : (acc ++ [b]).length = size := by
        simp at hsz ⊢
        omega
      rw [if_pos hlen]
      simp
    | cons c tl' =>
      have hlen : ¬((acc ++ [b]).length = size) := by
        simp at hsz ⊢
        omega
      rw [if_neg hlen,
        ih (by simp) size (acc ++ [b]) (by simp at hsz ⊢; omega) rest contents name results]
      simp [List.append_assoc]

/-- If strictly fewer bytes remain than the payload still needs, the machine
runs off the end of the input and fails with the payload-truncation error. -/
theorem parseEntries_payload_trunc {Img : Type} (codec : Codec Img) :
    ∀ (p : List Nat) (size : Nat) (acc : List Nat), acc.length + p.length < size →
    ∀ (contents name : List Nat) (results : List (String × Img)),
    parseEntries codec p contents name (.readingPayload size acc) results =
      .error .truncatedPayload := by
  intro p
  induction p with
  | nil => intro size acc _ contents name results; rw [parseEntries]
  | cons b tl ih =>
    intro size acc hsz contents name results
    have hlen : ¬((acc ++ [b]).length = size) := by
      simp at hsz ⊢
      omega
    rw [parseEntries, if_neg hlen]
    exact ih size (acc ++ [b]) (by simp at hsz ⊢; omega) contents name results

/-! ## The association-list map -/

/-- Looking up the freshly inserted key finds the new value; other keys are
unaffected. -/
theorem mapLookup_mapInsert {α : Type} :
    ∀ (m : List (String × α)) (k k' : String) (v : α),
    mapLookup (mapInsert m k v) k' = if k = k' then some v else mapLookup m k' := by
  intro m
  induction m with
  | nil =>
    intro k k' v
    simp [mapInsert, mapLookup]
  | cons q tl ih =>
    intro k k' v
    obtain ⟨a, b⟩ := q
    by_cases hak : a = k
    · subst hak
      rw [mapInsert, if_pos rfl]
      by_cases hkk : a = k'
      · subst hkk
        simp [mapLookup]
      · simp [mapLookup, hkk]
    · rw [mapInsert, if_neg hak]
      by_cases hkk : a = k'
      · subst hkk
        have : ¬(k = a) := fun h => hak h.symm
        simp [mapLookup, this]
      · simp [mapLookup, hkk, ih]

/-- A fold of inserts whose keys all differ from `k` leaves `k`'s binding
alone.  (The fold shape is the one the entry loop produces.) -/
theorem mapLookup_foldl_skip {α β : Type} (key : β → String) (val : β → α) :
    ∀ (es : List β) (m : List (String × α)) (k : String),
    (∀ e ∈ es, key e ≠ k) →
    mapLookup (es.foldl (fun m e => mapInsert m (key e) (val e)) m) k = mapLookup m k := by
  intro es
  induction es with
  | nil => intro m k _; rfl
  | cons e tl ih =>
    intro m k h
    rw [List.foldl_cons, ih _ k (fun x hx => h x (List.mem_cons_of_mem e hx)),
      mapLookup_mapInsert, if_neg (h e (List.mem_cons_self e tl))]

/-- The keys of the map after an overwrite-insert: unchanged when the key was
present, the key appended when it was not. -/
theorem mapInsert_keys {α : Type} :
    ∀ (m : List (String × α)) (k : String) (v : α),
    (mapInsert m k v).map Prod.fst =
      if k ∈ m.map Prod.fst then m.map Prod.fst else m.map Prod.fst ++ [k] := by
  intro m
  induction m with
  | nil => intro k v; simp [mapInsert]
  | cons q tl ih =>
    intro k v
    obtain ⟨a, b⟩ := q
    by_cases hak : a = k
    · subst hak
      simp [mapInsert]
    · have : ¬(k = a) := fun h => hak h.symm
      simp [mapInsert, hak, this, ih]
      by_cases hm : k ∈ tl.map Prod.fst <;> simp [hm, this]

/-- Overwrite-insert keeps the key list duplicate-free. -/
theorem mapInsert_nodup {α : Type} (m : List (String × α)) (k : String) (v : α)
    (h : (m.map Prod.fst).Nodup) : ((mapInsert m k v).map Prod.fst).Nodup := by
  rw [mapInsert_keys]
  by_cases hm : k ∈ m.map Prod.fst
  · simpa [hm]
  · simpa [hm, List.nodup_append] using h

/-- The inserted key is present afterwards. -/
theorem mapInsert_mem_keys {α : Type} (m : List (String × α)) (k : String) (v : α) :
    k ∈ (mapInsert m k v).map Prod.fst := by
  rw [mapInsert_keys]
  by_cases hm : k ∈ m.map Prod.fst <;> simp [hm]

/-- A successful lookup means the key is present. -/
theorem mapLookup_mem_keys {α : Type} :
    ∀ (m : List (String × α)) (k : String) (v : α),
    mapLookup m k = some v → k ∈ m.map Prod.fst := by
  intro m
  induction m with
  | nil => intro k v h; exact absurd h (by simp [mapLookup])
  | cons q tl ih =>
    intro k v h
    obtain ⟨a, b⟩ := q
    rw [mapLookup] at h
    by_cases hak : a = k
    · simp [hak]
    · rw [if_neg hak] at h
      exact List.mem_cons_of_mem a (ih k v h)

/-- In a map whose key list is duplicate-free, a present key owns exactly one
binding. -/
theorem filter_length_of_nodup {α : Type} :
    ∀ (m : List (String × α)) (k : String), (m.map Prod.fst).Nodup →
    k ∈ m.map Prod.fst →
    (m.filter (fun q => q.1 = k)).length = 1 := by
  intro m
  induction m with
  | nil => intro k _ hk; simp at hk
  | cons q tl ih =>
    intro k hnd hk
    obtain ⟨a, b⟩ := q
    rw [List.map_cons, List.nodup_cons] at hnd
    by_cases hak : a = k
    · subst hak
      rw [List.filter_cons_of_pos (by simp)]
      have hfil : tl.filter (fun q => q.1 = a) = [] := by
        rw [List.filter_eq_nil_iff]
        intro q hq hqa
        apply hnd.1
        have hq1 : q.1 ∈ tl.map Prod.fst := List.mem_map_of_mem Prod.fst hq
        simp at hqa
        rwa [hqa] at hq1
      simp [hfil]
    · rw [List.filter_cons_of_neg (by simp [hak])]
      rw [List.map_cons] at hk
      exact ih k hnd.2 ((List.mem_cons.mp hk).resolve_left fun h => hak h.symm)

/-! ## Bytes, characters and UTF-8 -/

/-- `(b as char).to_u32 == b` for any byte (indeed for any code point below
the surrogate range). -/
theorem toNat_ofNat_lt {n : Nat} (h : n < 55296) : (Char.ofNat n).toNat = n := by
  have hv : n.isValidChar := Or.inl h
  simp [Char.ofNat, dif_pos hv, Char.ofNatAux, Char.toNat, UInt32.toNat,
    BitVec.toNat_ofNatLt]

/-- `b as char` is injective on bytes. -/
theorem ofNat_inj_of_lt {a b : Nat} (ha : a < 256) (hb : b < 256)
    (h : Char.ofNat a = Char.ofNat b) : a = b := by
  have := congrArg Char.toNat h
  rwa [toNat_ofNat_lt (by omega), toNat_ofNat_lt (by omega)] at this

/-- The decoded-name string determines the raw name bytes. -/
theorem decodedName_inj :
    ∀ (nb nb' : List Nat), (∀ b ∈ nb, b < 256) → (∀ b ∈ nb', b < 256) →
    decodedName nb = decodedName nb' → nb = nb' := by
  intro nb
  induction nb with
  | nil =>
    intro nb' _ _ h
    cases nb' with
    | nil => rfl
    | cons b tl => exact absurd (congrArg String.data h) (by simp [decodedName])
  | cons a tl ih =>
    intro nb' ha hb h
    cases nb' with
    | nil => exact absurd (congrArg String.data h) (by simp [decodedName])
    | cons b tl' =>
      have hd := congrArg String.data h
      simp only [decodedName, List.map_cons] at hd
      injection hd with h1 h2
      have hab : a = b :=
        ofNat_inj_of_lt (ha a (List.mem_cons_self a tl)) (hb b (List.mem_cons_self b tl')) h1
      have htl : tl = tl' :=
        ih tl' (fun x hx => ha x (List.mem_cons_of_mem a hx))
          (fun x hx => hb x (List.mem_cons_of_mem b hx))
          (congrArg String.mk h2)
      rw [hab, htl]

/-- An ASCII character occupies one UTF-8 byte: its own code point. -/
theorem charUtf8_ascii {c : Char} (h : c.toNat < 128) : charUtf8 c = [c.toNat] := by
  simp [charUtf8, h]

/-- The UTF-8 bytes of an all-ASCII string are its characters' code points. -/
theorem strBytes_ascii :
    ∀ (cs : List Char), (∀ c ∈ cs, c.toNat < 128) →
    (String.mk cs).data.flatMap charUtf8 = cs.map Char.toNat := by
  intro cs
  induction cs with
  | nil => intro _; rfl
  | cons c tl ih =>
    intro h
    have hc := h c (List.mem_cons_self c tl)
    have htl := ih (fun x hx => h x (List.mem_cons_of_mem c hx))
    simp only [List.flatMap_cons, List.map_cons] at htl ⊢
    rw [charUtf8_ascii hc]
    simpa using htl

/-- Reading an all-ASCII name written by `encode` back with the parser's
byte-as-char conversion reproduces the original string. -/
theorem decodedName_strBytes (s : String) (h : ∀ c ∈ s.data, c.toNat < 128) :
    decodedName (strBytes s) = s := by
  obtain ⟨cs⟩ := s
  rw [strBytes, strBytes_ascii cs h, decodedName]
  congr 1
  calc (cs.map Char.toNat).map Char.ofNat
      = cs.map (Char.ofNat ∘ Char.toNat) := by rw [List.map_map]
    _ = cs.map id := List.map_congr_left (fun c _ => Char.ofNat_toNat c)
    _ = cs := List.map_id cs

/-- The UTF-8 bytes of an all-ASCII, colon-free string never contain the
entry delimiter. -/
theorem strBytes_no_colon (s : String) (h : ∀ c ∈ s.data, c.toNat < 128)
    (hc : ∀ c ∈ s.data, c ≠ ':') : ∀ b ∈ strBytes s, b ≠ 58 := by
  intro b hb
  rw [strBytes, show s.data.flatMap charUtf8 = (String.mk s.data).data.flatMap charUtf8 from rfl,
    strBytes_ascii s.data h] at hb
  obtain ⟨c, hcm, hcb⟩ := List.mem_map.mp hb
  intro h58
  apply hc c hcm
  have : Char.ofNat c.toNat = Char.ofNat 58 := by rw [hcb, h58]
  rw [Char.ofNat_toNat] at this
  rw [this]

/-- ASCII strings have bytes below 128 (hence valid single bytes). -/
theorem strBytes_lt (s : String) (h : ∀ c ∈ s.data, c.toNat < 128) :
    ∀ b ∈ strBytes s, b < 128 := by
  intro b hb
  rw [strBytes, show s.data.flatMap charUtf8 = (String.mk s.data).data.flatMap charUtf8 from rfl,
    strBytes_ascii s.data h] at hb
  obtain ⟨c, hcm, hcb⟩ := List.mem_map.mp hb
  rw [← hcb]
  exact h c hcm

/-! ## One complete entry, and streams of entries -/

/-- The step at the `:` that terminates a size field whose text parses to
exactly the number of following payload bytes `p`: the machine consumes `p`
wholesale — no delimiter scanning, `:` and arbitrary byte values inside `p`
included — PNG-decodes it, and resumes in name mode at `rest`. -/
theorem parseEntries_size_step {Img : Type} (codec : Codec Img)
    (sz : List Nat) (n : Nat) (h : parseUsize sz = some n)
    (p : List Nat) (hlen : p.length = n)
    (rest name : List Nat) (results : List (String × Img)) :
    parseEntries codec (58 :: (p ++ rest)) sz name .readingSize results =
      match codec.decodePng p with
      | none => .error .invalidPayload
      | some im =>
        parseEntries codec rest [] name .readingName
          (mapInsert results (decodedName name) im) := by
  rw [parseEntries, if_pos rfl, h]
  by_cases hz : n = 0
  · have hp : p = [] := by
      subst hz
      exact List.length_eq_zero.mp hlen
    subst hp
    subst hz
    rfl
  · have hp : p ≠ [] := by
      intro hh
      rw [hh] at hlen
      exact hz hlen.symm
    dsimp only
    rw [if_neg hz,
      parseEntries_payload_run codec p hp n [] (by simp [hlen]) rest [] name results]
    simp only [List.nil_append]

/-- Parsing one complete on-wire entry from name mode with an empty text
buffer: the name is scanned to its `:`, the decimal size to its `:`, the
payload is consumed whole, decoded, and inserted; the machine then continues
at `rest` in name mode. -/
theorem parseEntries_entry {Img : Type} (codec : Codec Img)
    (nb : List Nat) (hnb : ∀ b ∈ nb, b ≠ 58)
    (p : List Nat) (hp : p.length ≤ USIZE_MAX)
    (rest name0 : List Nat) (results : List (String × Img)) :
    parseEntries codec (nb ++ [58] ++ natDecimal p.length ++ [58] ++ p ++ rest)
      [] name0 .readingName results =
      match codec.decodePng p with
      | none => .error .invalidPayload
      | some im =>
        parseEntries codec rest [] nb .readingName
          (mapInsert results (decodedName nb) im) := by
  rw [show nb ++ [58] ++ natDecimal p.length ++ [58] ++ p ++ rest
      = nb ++ (58 :: (natDecimal p.length ++ (58 :: (p ++ rest)))) by simp]
  rw [parseEntries_name_run codec nb hnb _ [] name0 results]
  simp only [List.nil_append]
  rw [parseEntries, if_pos rfl]
  rw [parseEntries_size_run codec (natDecimal p.length)
    (fun b hb => natDecimal_ne_colon b hb) _ [] nb results]
  simp only [List.nil_append]
  exact parseEntries_size_step codec (natDecimal p.length) p.length
    (parseUsize_natDecimal hp) p rfl rest nb results

/-- Parsing a stream of complete entries (all of whose payloads decode)
builds exactly the left fold of overwrite-inserts over the entries, in
order. -/
theorem parseEntries_stream {Img : Type} (codec : Codec Img) :
    ∀ (entries : List (List Nat × List Nat × Img)),
    (∀ e ∈ entries, ∀ b ∈ e.1, b ≠ 58) →
    (∀ e ∈ entries, e.2.1.length ≤ USIZE_MAX) →
    (∀ e ∈ entries, codec.decodePng e.2.1 = some e.2.2) →
    ∀ (name0 : List Nat) (results : List (String × Img)),
    parseEntries codec (sfaBody entries) [] name0 .readingName results =
      .ok (entries.foldl (fun m e => mapInsert m (decodedName e.1) e.2.2) results) := by
  intro entries
  induction entries with
  | nil => intro _ _ _ name0 results; rfl
  | cons e tl ih =>
    intro h1 h2 h3 name0 results
    obtain ⟨nb, p, im⟩ := e
    have hmem : (nb, p, im) ∈ (nb, p, im) :: tl := List.mem_cons_self _ tl
    rw [show sfaBody ((nb, p, im) :: tl)
        = nb ++ [58] ++ natDecimal p.length ++ [58] ++ p ++ sfaBody tl by
      simp [sfaBody, entryBytes, List.append_assoc]]
    rw [parseEntries_entry codec nb (h1 _ hmem) p (h2 _ hmem) (sfaBody tl) name0 results]
    rw [h3 _ hmem]
    dsimp only
    rw [ih (fun x hx => h1 x (List.mem_cons_of_mem _ hx))
      (fun x hx => h2 x (List.mem_cons_of_mem _ hx))
      (fun x hx => h3 x (List.mem_cons_of_mem _ hx)) nb
      (mapInsert results (decodedName nb) im)]
    rw [List.foldl_cons]

/-- When every input opens, `encode`'s loop emits
`<name utf8> ":" <decimal length> ":" <png bytes>` per input, in order. -/
theorem encodeEntries_ok {Img : Type} (codec : Codec Img) (imgOf : String → Img) :
    ∀ (l : List String), (∀ x ∈ l, codec.openImage x = some (imgOf x)) →
    encodeEntries codec l = .ok (l.flatMap fun x =>
      strBytes x ++ [58] ++ natDecimal (codec.encodePng (imgOf x)).length ++ [58] ++
        codec.encodePng (imgOf x)) := by
  intro l
  induction l with
  | nil => intro _; rfl
  | cons y tl ih =>
    intro h
    rw [encodeEntries, h y (List.mem_cons_self y tl)]
    dsimp only
    rw [ih (fun x hx => h x (List.mem_cons_of_mem y hx))]
    dsimp only
    rw [List.flatMap_cons]

/-! ## The specification's claims -/

/-- C8.  Encoding an empty input list produces exactly the 4 magic bytes
`"SFA;"`, and decoding those bytes succeeds with an empty mapping. -/
theorem empty_container_roundtrip {Img : Type} (codec : Codec Img) :
    encode codec [] = .ok magicBytes ∧ decodeFromReader codec magicBytes = .ok [] :=
  ⟨rfl, rfl⟩

/-- C5.  For sources that all open and decode, the encoder's output is the
magic marker followed, per source in input order, by the literal
`<name> ":" <decimal length> ":"` and then exactly the re-encoded payload
bytes — no padding, no alignment, no trailing separator. -/
theorem encode_layout {Img : Type} (codec : Codec Img)
    (inputs : List String) (imgOf : String → Img)
    (hopen : ∀ x ∈ inputs, codec.openImage x = some (imgOf x)) :
    encode codec inputs =
      .ok (magicBytes ++ inputs.flatMap (fun x =>
        strBytes x ++ [58] ++ natDecimal (codec.encodePng (imgOf x)).length ++ [58] ++
          codec.encodePng (imgOf x))) := by
  rw [encode, encodeEntries_ok codec imgOf inputs hopen]

/-- Witness for C5 at a concrete input: one source named `"a"` whose image
re-encodes to the empty byte buffer, giving `b"SFA;a:0:"`. -/
theorem encode_layout_witness :
    encode bytesCodec ["a"] = .ok [83, 70, 65, 59, 97, 58, 48, 58] :=
  (encode_layout bytesCodec ["a"] (fun _ => []) (fun _ _ => rfl)).trans (by decide)

/-- C2 (counterexample).  A stream that ends mid-name — `"SFA;"` followed by
the lone name byte `a` and no delimiter — is *accepted*: the entry loop's
`while let` simply ends and the call returns the (here empty) mapping built
so far, instead of failing with a truncation error. -/
theorem decode_midname_silent_success :
    decodeFromReader bytesCodec [83, 70, 65, 59, 97] = .ok [] := by decide

/-- C2 (amended).  At end of input the entry loop returns the accumulated
mapping whenever it is in `ReadingName` *or* `ReadingSize` mode — regardless
of what sits in the text buffer, so a trailing partial name or partial size
field is silently discarded; only exhaustion inside a pending payload is a
truncation error. -/
theorem entry_loop_eof_behavior {Img : Type} (codec : Codec Img)
    (contents name : List Nat) (results : List (String × Img)) :
    parseEntries codec [] contents name .readingName results = .ok results ∧
    parseEntries codec [] contents name .readingSize results = .ok results ∧
    ∀ (size : Nat) (acc : List Nat),
      parseEntries codec [] contents name (.readingPayload size acc) results =
        .error .truncatedPayload :=
  ⟨rfl, rfl, fun _ _ => rfl⟩

/-- C3 (counterexample).  On the 2-byte stream `[0xFF, 0xFF]` the magic
phase fails with the *invalid*-magic error after consuming only 2 bytes:
each `0xFF` pushed as a `char` occupies two UTF-8 bytes in the accumulator
string, so `contents.len() >= 4` fires early.  The claim instead requires
`TruncatedMagic` whenever fewer than 4 input bytes are available. -/
theorem magic_two_high_bytes_invalid :
    decodeFromReader bytesCodec [255, 255] = .error .invalidMagic := by decide

/-- C6.  A stream whose (well-formed) final entry declares a size larger
than the number of bytes that remain after the size delimiter fails with the
payload-truncation error; in particular no partial mapping is returned. -/
theorem truncated_payload_error {Img : Type} (codec : Codec Img)
    (nb : List Nat) (hnb : ∀ b ∈ nb, b ≠ 58)
    (sz : List Nat) (hszc : ∀ b ∈ sz, b ≠ 58)
    (n : Nat) (hsz : parseUsize sz = some n)
    (p : List Nat) (hlen : p.length < n) :
    decodeFromReader codec (magicBytes ++ (nb ++ [58] ++ sz ++ [58] ++ p)) =
      .error .truncatedPayload := by
  rw [decodeFromReader, parseMagic_magic]
  dsimp only
  rw [show nb ++ [58] ++ sz ++ [58] ++ p = nb ++ (58 :: (sz ++ (58 :: p))) by simp]
  rw [parseEntries_name_run codec nb hnb _ [] [] []]
  simp only [List.nil_append]
  rw [parseEntries, if_pos rfl]
  rw [parseEntries_size_run codec sz hszc _ [] nb []]
  simp only [List.nil_append]
  rw [parseEntries, if_pos rfl, hsz]
  dsimp only
  rw [if_neg (by omega)]
  exact parseEntries_payload_trunc codec p n [] (by simpa using hlen) [] nb []

/-- Witness for C6: `b"SFA;a:2:"` followed by a single payload byte. -/
theorem truncated_payload_error_witness :
    decodeFromReader bytesCodec (magicBytes ++ ([97] ++ [58] ++ [50] ++ [58] ++ [9])) =
      .error .truncatedPayload :=
  truncated_payload_error bytesCodec [97] (by decide) [50] (by decide) 2 (by decide)
    [9] (by decide)

/-- C9.  Once a size field parsing to `n` is closed by its `:`, the machine
consumes exactly the next `n` bytes as the payload — `:` bytes and arbitrary
values included, with no delimiter scanning — and the byte after them is
where the next entry's name begins. -/
theorem payload_consumed_exactly {Img : Type} (codec : Codec Img)
    (sz p : List Nat) (h : parseUsize sz = some p.length)
    (rest name : List Nat) (results : List (String × Img)) :
    parseEntries codec (58 :: (p ++ rest)) sz name .readingSize results =
      match codec.decodePng p with
      | none => .error .invalidPayload
      | some im =>
        parseEntries codec rest [] name .readingName
          (mapInsert results (decodedName name) im) :=
  parseEntries_size_step codec sz p.length h p rfl rest name results

/-- Witness for C9: declared size 2 over the payload `[58, 7]` — whose first
byte *is* the delimiter byte `:` — is consumed whole and bound to the
pending name `"a"`. -/
theorem payload_consumed_exactly_witness :
    parseEntries bytesCodec (58 :: ([58, 7] ++ [])) [50] [97] .readingSize [] =
      .ok [("a", [58, 7])] :=
  (payload_consumed_exactly bytesCodec [50] [58, 7] (by decide) [] [97] []).trans
    (by decide)

/-- C3 (amended).  For all-ASCII input the magic phase does consume exactly
4 bytes, with the claimed trichotomy: success iff the first 4 bytes are
`"SFA;"` (a strict prefix check, not a scan), `TruncatedMagic` iff the
stream is shorter than 4 bytes, `InvalidMagic` otherwise.  (For input
containing bytes ≥ 0x80 the accounting is by UTF-8 length of the pushed
chars, so such bytes count double and `InvalidMagic` can fire after only 2
or 3 consumed bytes — see the counterexample.) -/
theorem magic_phase_ascii (bytes : List Nat) (h : ∀ b ∈ bytes, b < 128) :
    parseMagic bytes [] =
      if bytes.take 4 = magicBytes then .ok (bytes.drop 4)
      else if bytes.length < 4 then .error .truncatedMagic
      else .error .invalidMagic := by
  rcases bytes with _ | ⟨a, _ | ⟨b, _ | ⟨c, _ | ⟨d, rest⟩⟩⟩⟩
  · simp [parseMagic, magicBytes]
  · have ha : a < 128 := h a (by simp)
    simp [parseMagic, magicBytes, byteCharLen, ha]
  · have ha : a < 128 := h a (by simp)
    have hb : b < 128 := h b (by simp)
    simp [parseMagic, magicBytes, byteCharLen, ha, hb]
  · have ha : a < 128 := h a (by simp)
    have hb : b < 128 := h b (by simp)
    have hc : c < 128 := h c (by simp)
    simp [parseMagic, magicBytes, byteCharLen, ha, hb, hc]
  · have ha : a < 128 := h a (by simp)
    have hb : b < 128 := h b (by simp)
    have hc : c < 128 := h c (by simp)
    have hd : d < 128 := h d (by simp)
    by_cases hm : a = 83 ∧ b = 70 ∧ c = 65 ∧ d = 59
    · obtain ⟨rfl, rfl, rfl, rfl⟩ := hm
      rw [show (83 : Nat) :: 70 :: 65 :: 59 :: rest = magicBytes ++ rest from rfl,
        parseMagic_magic]
      simp [magicBytes]
    · have hm' : ¬([a, b, c, d] = ([83, 70, 65, 59] : List Nat)) := by
        simpa using hm
      simp [parseMagic, magicBytes, byteCharLen, ha, hb, hc, hd, hm']
      rw [if_neg (by omega)]

/-- Witness for C3's amended statement: the ASCII stream `b"XFA;!"` has 4+
bytes whose prefix is not the marker, so the phase consumes 4 bytes and
fails with `InvalidMagic`. -/
theorem magic_phase_ascii_witness :
    parseMagic [88, 70, 65, 59, 33] [] = .error .invalidMagic :=
  (magic_phase_ascii [88, 70, 65, 59, 33] (by decide)).trans (by decide)

/-- C4 (counterexample).  The size text `"+0"` — a leading `+` the claim
says must be rejected — is accepted by `str::parse::<usize>`, so
`b"SFA;a:+0:"` decodes successfully to a one-entry mapping instead of
failing with the invalid-length error. -/
theorem size_field_plus_accepted :
    decodeFromReader bytesCodec [83, 70, 65, 59, 97, 58, 43, 48, 58] =
      .ok [("a", [])] := by decide

/-- `parseUsize` on a field that starts with `+`: the sign is stripped and
the rest must be one or more digits. -/
theorem parseUsize_cons_plus (t : List Nat) :
    parseUsize (43 :: t) =
      if t.isEmpty then none
      else if t.all isDigitByte then
        if digitsVal t ≤ USIZE_MAX then some (digitsVal t) else none
      else none := by
  simp [parseUsize]

/-- `parseUsize` on a field that does not start with `+`. -/
theorem parseUsize_no_plus (cs : List Nat) (h : cs.head? ≠ some 43) :
    parseUsize cs =
      if cs.isEmpty then none
      else if cs.all isDigitByte then
        if digitsVal cs ≤ USIZE_MAX then some (digitsVal cs) else none
      else none := by
  simp [parseUsize, h]

/-- C4 (amended).  The size field is accepted exactly when its text is an
optional single leading `+` followed by one or more ASCII decimal digits
whose value fits in `usize`; any other text — and an in-range digit string
is recovered at its numeric value — makes the whole call fail with the
invalid-length error (shown on a stream ending at the size delimiter). -/
theorem size_field_parse_spec {Img : Type} (codec : Codec Img)
    (sz : List Nat) (hszc : ∀ b ∈ sz, b ≠ 58)
    (nb : List Nat) (hnb : ∀ b ∈ nb, b ≠ 58) :
    (∀ n, parseUsize sz = some n ↔
      ∃ ds, (sz = ds ∨ sz = 43 :: ds) ∧ ds ≠ [] ∧
        (∀ d ∈ ds, 48 ≤ d ∧ d ≤ 57) ∧ digitsVal ds = n ∧ n ≤ USIZE_MAX) ∧
    (parseUsize sz = none →
      decodeFromReader codec (magicBytes ++ (nb ++ [58] ++ sz ++ [58])) =
        .error .invalidLength) := by
  constructor
  · intro n
    constructor
    · intro hp
      by_cases hh : sz.head? = some 43
      · obtain ⟨t, rfl⟩ : ∃ t, sz = 43 :: t := by
          cases sz with
          | nil => simp at hh
          | cons a t =>
            rw [List.head?_cons] at hh
            injection hh with hh
            exact ⟨t, by rw [hh]⟩
        rw [parseUsize_cons_plus] at hp
        by_cases h1 : t.isEmpty
        · rw [if_pos h1] at hp; exact absurd hp (by simp)
        · rw [if_neg h1] at hp
          by_cases h2 : t.all isDigitByte
          · rw [if_pos h2] at hp
            by_cases h3 : digitsVal t ≤ USIZE_MAX
            · rw [if_pos h3] at hp
              injection hp with hp
              exact ⟨t, Or.inr rfl, by simpa [List.isEmpty_iff] using h1,
                fun d hd => by
                  have := List.all_eq_true.mp h2 d hd
                  simp [isDigitByte] at this
                  omega, hp, hp ▸ h3⟩
            · rw [if_neg h3] at hp; exact absurd hp (by simp)
          · rw [if_neg h2] at hp; exact absurd hp (by simp)
      · rw [parseUsize_no_plus sz hh] at hp
        by_cases h1 : sz.isEmpty
        · rw [if_pos h1] at hp; exact absurd hp (by simp)
        · rw [if_neg h1] at hp
          by_cases h2 : sz.all isDigitByte
          · rw [if_pos h2] at hp
            by_cases h3 : digitsVal sz ≤ USIZE_MAX
            · rw [if_pos h3] at hp
              injection hp with hp
              exact ⟨sz, Or.inl rfl, by simpa [List.isEmpty_iff] using h1,
                fun d hd => by
                  have := List.all_eq_true.mp h2 d hd
                  simp [isDigitByte] at this
                  omega, hp, hp ▸ h3⟩
            · rw [if_neg h3] at hp; exact absurd hp (by simp)
          · rw [if_neg h2] at hp; exact absurd hp (by simp)
    · rintro ⟨ds, hcase, hne, hdig, hval, hmax⟩
      have hall : ds.all isDigitByte := List.all_eq_true.mpr fun d hd => by
        have := hdig d hd
        simp [isDigitByte]
        omega
      rcases hcase with rfl | rfl
      · have hh : sz.head? ≠ some 43 := by
          cases sz with
          | nil => simp
          | cons a t =>
            have := hdig a (List.mem_cons_self a t)
            rw [List.head?_cons]
            intro hx
            injection hx with hx
            omega
        rw [parseUsize_no_plus sz hh,
          if_neg (by simpa [List.isEmpty_iff] using hne), if_pos hall, hval, if_pos hmax]
      · rw [parseUsize_cons_plus,
          if_neg (by simpa [List.isEmpty_iff] using hne), if_pos hall, hval, if_pos hmax]
  · intro hnone
    rw [decodeFromReader, parseMagic_magic]
    dsimp only
    rw [show nb ++ [58] ++ sz ++ [58] = nb ++ (58 :: (sz ++ [58])) by simp]
    rw [parseEntries_name_run codec nb hnb _ [] [] []]
    simp only [List.nil_append]
    rw [parseEntries, if_pos rfl]
    rw [parseEntries_size_run codec sz hszc [58] [] nb []]
    simp only [List.nil_append]
    rw [show ([58] : List Nat) = 58 :: [] from rfl, parseEntries, if_pos rfl, hnone]

/-- Witness for C4's amended statement: the size text `"++"` fails to parse
(after stripping one `+` the rest is not a digit string) and the decoder
reports the invalid-length error. -/
theorem size_field_parse_spec_witness :
    decodeFromReader bytesCodec (magicBytes ++ ([97] ++ [58] ++ [43, 43] ++ [58])) =
      .error .invalidLength :=
  (size_field_parse_spec bytesCodec [43, 43] (by decide) [97] (by decide)).2 (by decide)

/-- The UTF-8 width of `b as char` is exactly the accounting `byteCharLen`
uses: 1 byte below 0x80, 2 bytes for 0x80..=0xFF. -/
theorem charUtf8_ofNat_len {b : Nat} (hb : b < 256) :
    (charUtf8 (Char.ofNat b)).length = byteCharLen b := by
  have ht : (Char.ofNat b).toNat = b := toNat_ofNat_lt (by omega)
  by_cases h1 : b < 128
  · simp [charUtf8, ht, byteCharLen, h1]
  · simp [charUtf8, ht, byteCharLen, h1, show b < 2048 by omega]

/-- Re-encoding a name the parser decoded from all-ASCII bytes reproduces
those bytes. -/
theorem strBytes_decodedName_ascii :
    ∀ (nb : List Nat), (∀ b ∈ nb, b < 128) → strBytes (decodedName nb) = nb := by
  intro nb
  induction nb with
  | nil => intro _; rfl
  | cons b tl ih =>
    intro h
    have hb : b < 128 := h b (List.mem_cons_self b tl)
    have htl := ih (fun x hx => h x (List.mem_cons_of_mem b hx))
    simp only [strBytes, decodedName, List.map_cons, List.flatMap_cons] at htl ⊢
    rw [charUtf8_ascii (by rw [toNat_ofNat_lt (by omega)]; exact hb),
      toNat_ofNat_lt (show b < 55296 by omega), htl]
    rfl

/-- Re-encoding a decoded name never shortens it. -/
theorem strBytes_decodedName_ge :
    ∀ (nb : List Nat), (∀ b ∈ nb, b < 256) →
    nb.length ≤ (strBytes (decodedName nb)).length := by
  intro nb
  induction nb with
  | nil => intro _; exact Nat.le_refl 0
  | cons b tl ih =>
    intro h
    have hb : b < 256 := h b (List.mem_cons_self b tl)
    have htl := ih (fun x hx => h x (List.mem_cons_of_mem b hx))
    simp only [strBytes, decodedName, List.map_cons, List.flatMap_cons,
      List.length_append, List.length_cons] at htl ⊢
    have := charUtf8_ofNat_len hb
    have h1 : 1 ≤ (charUtf8 (Char.ofNat b)).length := by
      rw [this, byteCharLen]
      by_cases h128 : b < 128 <;> simp [h128]
    omega

/-- A decoded name containing a byte at or above 0x80 strictly grows when
re-encoded to UTF-8. -/
theorem strBytes_decodedName_gt :
    ∀ (nb : List Nat), (∀ b ∈ nb, b < 256) → (∃ b ∈ nb, 128 ≤ b) →
    nb.length < (strBytes (decodedName nb)).length := by
  intro nb
  induction nb with
  | nil => rintro _ ⟨b, hb, _⟩; simp at hb
  | cons b tl ih =>
    rintro h ⟨w, hw, hw128⟩
    have hb : b < 256 := h b (List.mem_cons_self b tl)
    have htl256 : ∀ x ∈ tl, x < 256 := fun x hx => h x (List.mem_cons_of_mem b hx)
    simp only [strBytes, decodedName, List.map_cons, List.flatMap_cons,
      List.length_append, List.length_cons]
    have hhead := charUtf8_ofNat_len hb
    have htail_ge := strBytes_decodedName_ge tl htl256
    simp only [strBytes, decodedName] at htail_ge
    rcases List.mem_cons.mp hw with rfl | hwtl
    · have : (charUtf8 (Char.ofNat w)).length = 2 := by
        rw [hhead, byteCharLen, if_neg (by omega)]
      omega
    · have htail_gt := ih htl256 ⟨w, hwtl, hw128⟩
      simp only [strBytes, decodedName] at htail_gt
      have h1 : 1 ≤ (charUtf8 (Char.ofNat b)).length := by
        rw [hhead, byteCharLen]
        by_cases h128 : b < 128 <;> simp [h128]
      omega

/-- C10.  The parser builds each name by converting every raw name byte to
the code point of the same value (`b as char`, a Latin-1 reading): a
single-entry stream binds exactly the key `decodedName nb`.  For all-ASCII
name bytes that string re-encodes (as `encode`'s `format!` would) to the very
bytes written; but if any name byte is ≥ 0x80 the decoded string's UTF-8
bytes differ from the bytes on the wire. -/
theorem name_latin1_decoding {Img : Type} (codec : Codec Img)
    (nb : List Nat) (hb : ∀ b ∈ nb, b < 256) (hc : ∀ b ∈ nb, b ≠ 58)
    (im : Img) (hd : codec.decodePng [] = some im) :
    decodeFromReader codec (magicBytes ++ (nb ++ [58, 48, 58])) =
      .ok [(decodedName nb, im)] ∧
    ((∀ b ∈ nb, b < 128) → strBytes (decodedName nb) = nb) ∧
    ((∃ b ∈ nb, 128 ≤ b) → strBytes (decodedName nb) ≠ nb) := by
  refine ⟨?_, fun h => strBytes_decodedName_ascii nb h, fun h heq => ?_⟩
  · rw [decodeFromReader, parseMagic_magic]
    dsimp only
    rw [show nb ++ [58, 48, 58] = nb ++ (58 :: ([48] ++ (58 :: ([] ++ [])))) by simp]
    rw [parseEntries_name_run codec nb hc _ [] [] []]
    simp only [List.nil_append]
    rw [parseEntries, if_pos rfl]
    rw [parseEntries_size_run codec [48] (by decide) _ [] nb []]
    simp only [List.nil_append]
    have hstep := parseEntries_size_step codec [48] 0 (by decide) [] rfl [] nb []
    simp only [List.nil_append] at hstep
    rw [hstep, hd]
    rfl
  · have hlt := strBytes_decodedName_gt nb hb h
    rw [heq] at hlt
    omega

/-- Witness for C10 with name bytes `[97, 200]` (an ASCII `a` then a high
byte): the entry is bound under the Latin-1 decoded key, and re-encoding
that key does not reproduce the wire bytes. -/
theorem name_latin1_decoding_witness :
    decodeFromReader bytesCodec (magicBytes ++ ([97, 200] ++ [58, 48, 58])) =
      .ok [(decodedName [97, 200], [])] ∧
    ((∀ b ∈ [97, 200], b < 128) → strBytes (decodedName [97, 200]) = [97, 200]) ∧
    ((∃ b ∈ [97, 200], 128 ≤ b) → strBytes (decodedName [97, 200]) ≠ [97, 200]) :=
  name_latin1_decoding bytesCodec [97, 200] (by decide) (by decide) [] rfl

/-- Looking up any input name in the map built by folding the encoder's own
entries finds that input's (re-decoded) image, duplicates included: a later
occurrence of the same name overwrites with the same image. -/
theorem mapLookup_fold_inputs {Img : Type} (codec : Codec Img) (imgOf : String → Img) :
    ∀ (inputs : List String) (m : List (String × Img)),
    (∀ x ∈ inputs, ∀ c ∈ x.data, c.toNat < 128) →
    ∀ x ∈ inputs,
    mapLookup
      ((inputs.map (fun y => (strBytes y, codec.encodePng (imgOf y), imgOf y))).foldl
        (fun m e => mapInsert m (decodedName e.1) e.2.2) m) x = some (imgOf x) := by
  intro inputs
  induction inputs with
  | nil => intro m _ x hx; simp at hx
  | cons y tl ih =>
    intro m hascii x hx
    rw [List.map_cons, List.foldl_cons]
    by_cases hxtl : x ∈ tl
    · exact ih _ (fun z hz => hascii z (List.mem_cons_of_mem y hz)) x hxtl
    · have hxy : x = y := (List.mem_cons.mp hx).resolve_right hxtl
      subst hxy
      have hskip : ∀ e ∈ tl.map (fun y => (strBytes y, codec.encodePng (imgOf y), imgOf y)),
          decodedName e.1 ≠ x := by
        intro e he
        obtain ⟨z, hz, rfl⟩ := List.mem_map.mp he
        rw [decodedName_strBytes z (hascii z (List.mem_cons_of_mem _ hz))]
        intro hzx
        exact hxtl (hzx ▸ hz)
      dsimp only
      rw [mapLookup_foldl_skip
          (fun e : List Nat × List Nat × Img => decodedName e.1)
          (fun e : List Nat × List Nat × Img => e.2.2)
          (tl.map (fun y => (strBytes y, codec.encodePng (imgOf y), imgOf y))) _ x hskip,
        mapLookup_mapInsert, decodedName_strBytes x (hascii x hx), if_pos rfl]

/-- C1 (amended).  Round trip for sources with all-ASCII, colon-free names:
when every source opens, decoding the encoder's output succeeds, and the
image bound to each source name is exactly the PNG-decoding of the PNG
re-encoding of that source's decoded image (idempotent under the fixed
re-encoding); with a codec for which PNG decoding inverts PNG encoding this
is `some (imgOf x)`.  The ASCII restriction is forced: the encoder writes
names as UTF-8 while the decoder rebuilds keys byte-as-char, so a non-ASCII
name is stored under a different key (see the counterexample).  The `hfits`
hypothesis is the machine bound `buf.len() <= usize::MAX`, which holds of
every real buffer. -/
theorem decode_encode_roundtrip {Img : Type} (codec : Codec Img)
    (inputs : List String) (imgOf : String → Img)
    (hopen : ∀ x ∈ inputs, codec.openImage x = some (imgOf x))
    (hascii : ∀ x ∈ inputs, ∀ c ∈ x.data, c.toNat < 128)
    (hcolon : ∀ x ∈ inputs, ∀ c ∈ x.data, c ≠ ':')
    (hlossless : ∀ im, codec.decodePng (codec.encodePng im) = some im)
    (hfits : ∀ im, (codec.encodePng im).length ≤ USIZE_MAX) :
    ∃ out m, encode codec inputs = .ok out ∧ decodeFromReader codec out = .ok m ∧
      ∀ x ∈ inputs, mapLookup m x = codec.decodePng (codec.encodePng (imgOf x)) := by
  have hbody : inputs.flatMap (fun x =>
        strBytes x ++ [58] ++ natDecimal (codec.encodePng (imgOf x)).length ++ [58] ++
          codec.encodePng (imgOf x)) =
      sfaBody (inputs.map (fun y => (strBytes y, codec.encodePng (imgOf y), imgOf y))) := by
    rw [sfaBody, List.flatMap_map]
    rfl
  have henc : encode codec inputs = .ok (magicBytes ++
      sfaBody (inputs.map (fun y => (strBytes y, codec.encodePng (imgOf y), imgOf y)))) := by
    rw [encode, encodeEntries_ok codec imgOf inputs hopen]
    dsimp only
    rw [hbody]
  have hstream := parseEntries_stream codec
    (inputs.map (fun y => (strBytes y, codec.encodePng (imgOf y), imgOf y)))
    (by
      intro e he
      obtain ⟨z, hz, rfl⟩ := List.mem_map.mp he
      exact strBytes_no_colon z (hascii z hz) (hcolon z hz))
    (by
      intro e he
      obtain ⟨z, hz, rfl⟩ := List.mem_map.mp he
      exact hfits (imgOf z))
    (by
      intro e he
      obtain ⟨z, hz, rfl⟩ := List.mem_map.mp he
      exact hlossless (imgOf z))
    [] []
  refine ⟨_, (inputs.map (fun y => (strBytes y, codec.encodePng (imgOf y), imgOf y))).foldl
    (fun m e => mapInsert m (decodedName e.1) e.2.2) [], henc, ?_, ?_⟩
  · rw [decodeFromReader, parseMagic_magic]
    dsimp only
    exact hstream
  · intro x hx
    rw [hlossless (imgOf x)]
    exact mapLookup_fold_inputs codec imgOf inputs [] hascii x hx

/-- C1 (counterexample).  The round trip fails for a non-ASCII source name:
for the source `"é"`, `encode` writes the name's UTF-8 bytes `[195, 169]`,
decoding succeeds — but the entry is bound under the Latin-1 misreading of
those bytes (`decodedName [195, 169]`, i.e. `"Ã©"`), so looking up the
source name `"é"` in the returned mapping finds nothing. -/
theorem decode_encode_nonascii_name_misses :
    encode bytesCodec ["é"] = .ok (magicBytes ++ [195, 169, 58, 48, 58]) ∧
    decodeFromReader bytesCodec (magicBytes ++ [195, 169, 58, 48, 58]) =
      .ok [(decodedName [195, 169], [])] ∧
    mapLookup [(decodedName [195, 169], ([] : List Nat))] "é" = none := by
  refine ⟨by decide, by decide, by decide⟩

/-- Witness for C1's amended statement: the single source `"a"` under the
unit-image codec. -/
theorem decode_encode_roundtrip_witness :
    ∃ out m, encode unitCodec ["a"] = .ok out ∧ decodeFromReader unitCodec out = .ok m ∧
      ∀ x ∈ ["a"], mapLookup m x =
        unitCodec.decodePng (unitCodec.encodePng ((fun _ => ()) x)) :=
  decode_encode_roundtrip unitCodec ["a"] (fun _ => ()) (fun _ _ => rfl) (by decide)
    (by decide) (fun _ => rfl) (fun _ => by simp [unitCodec])

/-- Folding the parser's inserts never introduces a duplicate key. -/
theorem stream_fold_keys_nodup {Img : Type} :
    ∀ (es : List (List Nat × List Nat × Img)) (m : List (String × Img)),
    (m.map Prod.fst).Nodup →
    ((es.foldl (fun m e => mapInsert m (decodedName e.1) e.2.2) m).map Prod.fst).Nodup := by
  intro es
  induction es with
  | nil => intro m h; exact h
  | cons e tl ih =>
    intro m h
    rw [List.foldl_cons]
    exact ih _ (mapInsert_nodup m _ _ h)

/-- C7.  In a stream whose entries all parse, where the entry `(nb, p, im)`
is the last one carrying the name bytes `nb` and at least one earlier entry
also carries `nb`, the decoded mapping holds exactly one binding for that
name, and its image is the one decoded from that last entry's payload. -/
theorem duplicate_name_last_wins {Img : Type} (codec : Codec Img)
    (pre post : List (List Nat × List Nat × Img)) (nb p : List Nat) (im : Img)
    (hall : ∀ e ∈ pre ++ (nb, p, im) :: post,
      (∀ b ∈ e.1, b < 256 ∧ b ≠ 58) ∧ e.2.1.length ≤ USIZE_MAX ∧
        codec.decodePng e.2.1 = some e.2.2)
    (hdup : ∃ e ∈ pre, e.1 = nb)
    (hpost : ∀ e ∈ post, e.1 ≠ nb) :
    ∃ m, decodeFromReader codec (magicBytes ++ sfaBody (pre ++ (nb, p, im) :: post)) =
        .ok m ∧
      mapLookup m (decodedName nb) = codec.decodePng p ∧
      (m.filter (fun q => q.1 = decodedName nb)).length = 1 := by
  have hmid := hall (nb, p, im) (List.mem_append.mpr (Or.inr (List.mem_cons_self _ _)))
  have hdec : decodeFromReader codec (magicBytes ++ sfaBody (pre ++ (nb, p, im) :: post)) =
      .ok ((pre ++ (nb, p, im) :: post).foldl
        (fun m e => mapInsert m (decodedName e.1) e.2.2) []) := by
    rw [decodeFromReader, parseMagic_magic]
    dsimp only
    exact parseEntries_stream codec _
      (fun e he b hb => ((hall e he).1 b hb).2)
      (fun e he => (hall e he).2.1)
      (fun e he => (hall e he).2.2)
      [] []
  have hlook : mapLookup ((pre ++ (nb, p, im) :: post).foldl
      (fun m e => mapInsert m (decodedName e.1) e.2.2) []) (decodedName nb) = some im := by
    rw [List.foldl_append, List.foldl_cons]
    have hpost' : ∀ e ∈ post, decodedName e.1 ≠ decodedName nb := by
      intro e he hEq
      apply hpost e he
      exact decodedName_inj e.1 nb
        (fun b hb =>
          ((hall e (List.mem_append.mpr (Or.inr (List.mem_cons_of_mem _ he)))).1 b hb).1)
        (fun b hb => (hmid.1 b hb).1) hEq
    dsimp only
    rw [mapLookup_foldl_skip
        (fun e : List Nat × List Nat × Img => decodedName e.1)
        (fun e : List Nat × List Nat × Img => e.2.2) post _ _ hpost',
      mapLookup_mapInsert, if_pos rfl]
  refine ⟨_, hdec, ?_, ?_⟩
  · rw [hlook, hmid.2.2]
  · exact filter_length_of_nodup _ _
      (stream_fold_keys_nodup _ [] (by simp))
      (mapLookup_mem_keys _ _ im hlook)

/-- Witness for C7: two entries both named `"a"` (payloads `[1]` and `[2]`);
the mapping holds the single binding `"a" := [2]`. -/
theorem duplicate_name_last_wins_witness :
    ∃ m, decodeFromReader bytesCodec
        (magicBytes ++ sfaBody ([([97], [1], [1])] ++ ([97], [2], [2]) :: [])) = .ok m ∧
      mapLookup m (decodedName [97]) = bytesCodec.decodePng [2] ∧
      (m.filter (fun q => q.1 = decodedName [97])).length = 1 :=
  duplicate_name_last_wins bytesCodec [([97], [1], [1])] [] [97] [2] [2]
    (by decide) (by decide) (by decide)

end SFA
